import Mathlib

/-!
Verification of the profillic-hmmer model converters, transition utilities,
alignment parser finalization, and calibration loop.

The C code computes with `float`/`double`; the embedding uses `ℚ`, so every
arithmetic identity of the source holds exactly here, and "within
floating-point tolerance" claims are settled by exact equality.  Machine
residue alphabets of size `K` are `Fin K` (the easel digitization of galosh
residue indices is a fixed bijection, modelled as the identity).
-/

namespace Profillic

/-! ## Plan7 transition slot indices (`p7H_*` from hmmer) -/

def p7H_MM : Fin 7 := 0
def p7H_MI : Fin 7 := 1
def p7H_MD : Fin 7 := 2
def p7H_IM : Fin 7 := 3
def p7H_II : Fin 7 := 4
def p7H_DM : Fin 7 := 5
def p7H_DD : Fin 7 := 6

/-- Plan7-style HMM over an alphabet of `K` residues (`P7_HMM`).
`t k` is the 7-slot transition vector at position `k` (meaningful for
`0 ≤ k ≤ M`), `mat`/`ins` the match/insert emission rows. -/
structure P7HMM (K : ℕ) where
  M : ℕ := 0
  t : ℕ → Fin 7 → ℚ := fun _ _ => 0
  mat : ℕ → Fin K → ℚ := fun _ _ => 0
  ins : ℕ → Fin K → ℚ := fun _ _ => 0

/-- Galosh profile (`galosh::ProfileTreeRoot`): per-position match emissions,
three global insertion emissions, and the named global transition groups. -/
structure GaloshProfile (K : ℕ) where
  length : ℕ := 0
  matchEmission : ℕ → Fin K → ℚ := fun _ _ => 0
  preAlignInsertion : Fin K → ℚ := fun _ => 0
  insertionEmission : Fin K → ℚ := fun _ => 0
  postAlignInsertion : Fin K → ℚ := fun _ => 0
  fromPreAlignToPreAlign : ℚ := 0
  fromPreAlignToBegin : ℚ := 0
  fromBeginToMatch : ℚ := 0
  fromBeginToDeletion : ℚ := 0
  fromMatchToMatch : ℚ := 0
  fromMatchToInsertion : ℚ := 0
  fromMatchToDeletion : ℚ := 0
  fromInsertionToMatch : ℚ := 0
  fromInsertionToInsertion : ℚ := 0
  fromDeletionToMatch : ℚ := 0
  fromDeletionToDeletion : ℚ := 0
  fromPostAlignToPostAlign : ℚ := 0
  fromPostAlignToTerminal : ℚ := 0

/-! ## Stochastic row normalization -/

/-- Modelled from the spec: `normalizeRow(vector, floor)` rescales a
non-negative vector so it sums to 1; if the sum is ≤ floor the source leaves
the vector unchanged (the all-zero vector stays the zero vector).  This is
the entry-wise form: `x` is one entry and `s` the row sum.  The row code
lives in the external prolific/easel libraries, not under `src/`. -/
def normalizedEntry (x s floor : ℚ) : ℚ :=
  if s ≤ floor then x else x / s

/-- Modelled from the spec: `profile.normalize(floor)` applies
`normalizeRow` with the given floor to every distribution of the galosh
profile — each per-position Match emission row, the three global insertion
emission rows, and each named transition group.  The profile class itself is
in the external prolific library, not under `src/`. -/
def GaloshProfile.normalize {K : ℕ} (p : GaloshProfile K) (floor : ℚ) :
    GaloshProfile K where
  length := p.length
  matchEmission := fun pos r =>
    normalizedEntry (p.matchEmission pos r) (∑ r', p.matchEmission pos r') floor
  preAlignInsertion := fun r =>
    normalizedEntry (p.preAlignInsertion r) (∑ r', p.preAlignInsertion r') floor
  insertionEmission := fun r =>
    normalizedEntry (p.insertionEmission r) (∑ r', p.insertionEmission r') floor
  postAlignInsertion := fun r =>
    normalizedEntry (p.postAlignInsertion r) (∑ r', p.postAlignInsertion r') floor
  fromPreAlignToPreAlign :=
    normalizedEntry p.fromPreAlignToPreAlign
      (p.fromPreAlignToPreAlign + p.fromPreAlignToBegin) floor
  fromPreAlignToBegin :=
    normalizedEntry p.fromPreAlignToBegin
      (p.fromPreAlignToPreAlign + p.fromPreAlignToBegin) floor
  fromBeginToMatch :=
    normalizedEntry p.fromBeginToMatch
      (p.fromBeginToMatch + p.fromBeginToDeletion) floor
  fromBeginToDeletion :=
    normalizedEntry p.fromBeginToDeletion
      (p.fromBeginToMatch + p.fromBeginToDeletion) floor
  fromMatchToMatch :=
    normalizedEntry p.fromMatchToMatch
      (p.fromMatchToMatch + p.fromMatchToInsertion + p.fromMatchToDeletion) floor
  fromMatchToInsertion :=
    normalizedEntry p.fromMatchToInsertion
      (p.fromMatchToMatch + p.fromMatchToInsertion + p.fromMatchToDeletion) floor
  fromMatchToDeletion :=
    normalizedEntry p.fromMatchToDeletion
      (p.fromMatchToMatch + p.fromMatchToInsertion + p.fromMatchToDeletion) floor
  fromInsertionToMatch :=
    normalizedEntry p.fromInsertionToMatch
      (p.fromInsertionToMatch + p.fromInsertionToInsertion) floor
  fromInsertionToInsertion :=
    normalizedEntry p.fromInsertionToInsertion
      (p.fromInsertionToMatch + p.fromInsertionToInsertion) floor
  fromDeletionToMatch :=
    normalizedEntry p.fromDeletionToMatch
      (p.fromDeletionToMatch + p.fromDeletionToDeletion) floor
  fromDeletionToDeletion :=
    normalizedEntry p.fromDeletionToDeletion
      (p.fromDeletionToMatch + p.fromDeletionToDeletion) floor
  fromPostAlignToPostAlign :=
    normalizedEntry p.fromPostAlignToPostAlign
      (p.fromPostAlignToPostAlign + p.fromPostAlignToTerminal) floor
  fromPostAlignToTerminal :=
    normalizedEntry p.fromPostAlignToTerminal
      (p.fromPostAlignToPostAlign + p.fromPostAlignToTerminal) floor

/-! ## HMMToProfile: `convert_to_galosh_profile` (src/unnamed/part_003) -/

/-- The divisor of the `fromBegin.toMatch` assignment in
`convert_to_galosh_profile`: `( 1.0 - hmm->t[ 0 ][ p7H_MI ] )`.  The source
divides by it with no guard. -/
def beginDivisor {K : ℕ} (hmm : P7HMM K) : ℚ :=
  1 - hmm.t 0 p7H_MI

/-- The profile as written by the position loop of
`convert_to_galosh_profile`, before the final `profile.normalize( 0 )`.
Interior accumulation ranges over `pos_i ∈ [0, M-2]` (HMM positions
`1..M-1`); the last position `pos_i = M-1` feeds the post-align slots. -/
def rawProfileOfHmm {K : ℕ} (hmm : P7HMM K) : GaloshProfile K where
  length := hmm.M
  matchEmission := fun pos r => hmm.mat (pos + 1) r
  preAlignInsertion := fun r => hmm.ins 0 r
  insertionEmission := fun r => ∑ p ∈ Finset.range (hmm.M - 1), hmm.ins (p + 1) r
  postAlignInsertion := fun r => hmm.ins hmm.M r
  fromPreAlignToPreAlign := hmm.t 0 p7H_II
  fromPreAlignToBegin := hmm.t 0 p7H_IM
  fromBeginToMatch := hmm.t 0 p7H_MM / beginDivisor hmm
  fromBeginToDeletion := 1 - hmm.t 0 p7H_MM / beginDivisor hmm
  fromMatchToMatch := ∑ p ∈ Finset.range (hmm.M - 1), hmm.t (p + 1) p7H_MM
  fromMatchToInsertion := ∑ p ∈ Finset.range (hmm.M - 1), hmm.t (p + 1) p7H_MI
  fromMatchToDeletion := ∑ p ∈ Finset.range (hmm.M - 1), hmm.t (p + 1) p7H_MD
  fromInsertionToMatch := ∑ p ∈ Finset.range (hmm.M - 1), hmm.t (p + 1) p7H_IM
  fromInsertionToInsertion := ∑ p ∈ Finset.range (hmm.M - 1), hmm.t (p + 1) p7H_II
  fromDeletionToMatch := ∑ p ∈ Finset.range (hmm.M - 1), hmm.t (p + 1) p7H_DM
  fromDeletionToDeletion := ∑ p ∈ Finset.range (hmm.M - 1), hmm.t (p + 1) p7H_DD
  fromPostAlignToPostAlign := 1 - hmm.t hmm.M p7H_IM
  fromPostAlignToTerminal := hmm.t hmm.M p7H_IM

/-- `convert_to_galosh_profile`: fails with no result when `hmm->M == 0`,
otherwise fills the profile and ends with `profile.normalize( 0 )`. -/
def convert_to_galosh_profile {K : ℕ} (hmm : P7HMM K) :
    Option (GaloshProfile K) :=
  if hmm.M = 0 then none
  else some ((rawProfileOfHmm hmm).normalize 0)

/-! ## ProfileToHMM: `profillic_p7_Profillicmodelmaker`
(src/profillic-p7_builder.hpp) -/

/-- The `P7_HMM` object built by `profillic_p7_Profillicmodelmaker` from a
galosh profile: zero-filled by `p7_hmm_Zero`, then position 0 written from
the preAlign/begin groups, then the position loop; the last position takes
the post-align groups and emissions, every other (interior) position gets
the single shared groups broadcast. -/
def rawHmmOfProfile {K : ℕ} (p : GaloshProfile K) : P7HMM K where
  M := p.length
  t := fun k i =>
    if k = 0 then
      if i = p7H_MI then p.fromPreAlignToPreAlign
      else if i = p7H_II then p.fromPreAlignToPreAlign
      else if i = p7H_IM then 1 - p.fromPreAlignToPreAlign
      else if i = p7H_MM then (1 - p.fromPreAlignToPreAlign) * p.fromBeginToMatch
      else if i = p7H_MD then (1 - p.fromPreAlignToPreAlign) * p.fromBeginToDeletion
      else 0
    else if k = p.length then
      if i = p7H_IM then p.fromPostAlignToTerminal
      else if i = p7H_II then p.fromPostAlignToPostAlign
      else if i = p7H_MM then p.fromPostAlignToTerminal
      else if i = p7H_MI then p.fromPostAlignToPostAlign
      else 0
    else if k < p.length then
      if i = p7H_MM then p.fromMatchToMatch
      else if i = p7H_MI then p.fromMatchToInsertion
      else if i = p7H_MD then p.fromMatchToDeletion
      else if i = p7H_IM then p.fromInsertionToMatch
      else if i = p7H_II then p.fromInsertionToInsertion
      else if i = p7H_DM then p.fromDeletionToMatch
      else p.fromDeletionToDeletion
    else 0
  mat := fun k r =>
    if k = 0 then (if (r : ℕ) = 0 then 1 else 0)
    else if k ≤ p.length then p.matchEmission (k - 1) r
    else 0
  ins := fun k r =>
    if k = 0 then p.preAlignInsertion r
    else if k = p.length then p.postAlignInsertion r
    else if k < p.length then p.insertionEmission r
    else 0

/-- `profillic_p7_Profillicmodelmaker`: fails with no result when the
profile length is zero, otherwise returns the built model. -/
def profillic_p7_Profillicmodelmaker {K : ℕ} (p : GaloshProfile K) :
    Option (P7HMM K) :=
  if p.length = 0 then none
  else some (rawHmmOfProfile p)

/-- The condition of the `assert` executed at the last position of the
builder's loop, for every residue:
`hmm->ins[ pos_i + 1 ][ r ] == hmm->ins[ 0 ][ r ]` with `pos_i + 1 = M`. -/
def profillicInsAssert {K : ℕ} (p : GaloshProfile K) : Prop :=
  ∀ r : Fin K, (rawHmmOfProfile p).ins p.length r = (rawHmmOfProfile p).ins 0 r

/-! ## Shared facts about the conversion -/

theorem normalizedEntry_of_pos {x s : ℚ} (hs : 0 < s) :
    normalizedEntry x s 0 = x / s := by
  rw [normalizedEntry, if_neg (not_le.mpr hs)]

theorem convert_fromBegin_pair {K : ℕ} (hmm : P7HMM K) :
    ((rawProfileOfHmm hmm).normalize 0).fromBeginToMatch
        = hmm.t 0 p7H_MM / beginDivisor hmm
    ∧ ((rawProfileOfHmm hmm).normalize 0).fromBeginToDeletion
        = 1 - hmm.t 0 p7H_MM / beginDivisor hmm := by
  have h : (rawProfileOfHmm hmm).fromBeginToMatch
      + (rawProfileOfHmm hmm).fromBeginToDeletion = 1 := by
    simp [rawProfileOfHmm]
  constructor
  · show normalizedEntry (rawProfileOfHmm hmm).fromBeginToMatch
      ((rawProfileOfHmm hmm).fromBeginToMatch
        + (rawProfileOfHmm hmm).fromBeginToDeletion) 0 = _
    rw [h, normalizedEntry_of_pos one_pos, div_one]
    rfl
  · show normalizedEntry (rawProfileOfHmm hmm).fromBeginToDeletion
      ((rawProfileOfHmm hmm).fromBeginToMatch
        + (rawProfileOfHmm hmm).fromBeginToDeletion) 0 = _
    rw [h, normalizedEntry_of_pos one_pos, div_one]
    rfl

/-- Claim C3: for every input HMM with `M ≥ 1`, HMMToProfile assigns
`fromBegin.toMatch` the value `t[0][MM] / (1 - t[0][MI])` and assigns
`fromBegin.toDeletion` the value `1 - fromBegin.toMatch`. -/
theorem convert_fromBegin_assignment {K : ℕ} (hmm : P7HMM K)
    (h : 1 ≤ hmm.M) :
    (convert_to_galosh_profile hmm).map
        (fun p => (p.fromBeginToMatch, p.fromBeginToDeletion))
      = some (hmm.t 0 p7H_MM / (1 - hmm.t 0 p7H_MI),
              1 - hmm.t 0 p7H_MM / (1 - hmm.t 0 p7H_MI)) := by
  have hM : ¬ hmm.M = 0 := by omega
  rw [convert_to_galosh_profile, if_neg hM]
  have hpair := convert_fromBegin_pair hmm
  simp only [Option.map_some', beginDivisor] at *
  rw [hpair.1, hpair.2]

/-- A concrete 2-residue HMM with one match state, used as witness input. -/
def hmmA : P7HMM 2 where
  M := 1
  t := fun k i =>
    if k = 0 then
      if i = p7H_MM then 2/5 else if i = p7H_MI then 1/5
      else if i = p7H_MD then 2/5
      else if i = p7H_IM then 7/10 else if i = p7H_II then 3/10 else 0
    else if k = 1 then
      if i = p7H_IM then 3/5 else if i = p7H_II then 2/5 else 0
    else 0
  mat := fun _ _ => 1/2
  ins := fun _ r => if (r : ℕ) = 0 then 1/4 else 3/4

theorem convert_fromBegin_assignment_witness :
    (convert_to_galosh_profile hmmA).map
        (fun p => (p.fromBeginToMatch, p.fromBeginToDeletion))
      = some (hmmA.t 0 p7H_MM / (1 - hmmA.t 0 p7H_MI),
              1 - hmmA.t 0 p7H_MM / (1 - hmmA.t 0 p7H_MI)) :=
  convert_fromBegin_assignment hmmA (by decide)

/-- Claim C10: HMMToProfile computes `fromBegin.toMatch` as
`t[0][MM] / (1.0 - t[0][MI])` with no guard on the divisor: when the
position-0 Match-Insert probability equals 1 the divisor is 0, the
conversion still proceeds (no error branch exists for it) and still feeds
the division into the profile; the divisor is nonzero exactly under the
unstated precondition `t[0][MI] < 1`. -/
theorem beginDivisor_unguarded {K : ℕ} (hmm : P7HMM K) :
    (hmm.t 0 p7H_MI = 1 → beginDivisor hmm = 0)
    ∧ (hmm.t 0 p7H_MI < 1 → beginDivisor hmm ≠ 0)
    ∧ (1 ≤ hmm.M →
        (convert_to_galosh_profile hmm).isSome = true
        ∧ (convert_to_galosh_profile hmm).map (fun p => p.fromBeginToMatch)
            = some (hmm.t 0 p7H_MM / beginDivisor hmm)) := by
  refine ⟨fun h1 => by simp [beginDivisor, h1], fun hlt => ?_, fun hM => ?_⟩
  · have : 0 < beginDivisor hmm := by simp [beginDivisor]; linarith
    exact ne_of_gt this
  · have hM0 : ¬ hmm.M = 0 := by omega
    constructor
    · rw [convert_to_galosh_profile, if_neg hM0]; rfl
    · rw [convert_to_galosh_profile, if_neg hM0]
      simp only [Option.map_some']
      rw [(convert_fromBegin_pair hmm).1]

/-- A concrete 2-residue HMM whose position-0 Match-Insert probability is 1. -/
def hmmDiv : P7HMM 2 where
  M := 1
  t := fun k i =>
    if k = 0 then (if i = p7H_MI then 1 else 0) else 0

theorem beginDivisor_unguarded_witness :
    beginDivisor hmmDiv = 0
    ∧ (convert_to_galosh_profile hmmDiv).isSome = true :=
  ⟨(beginDivisor_unguarded hmmDiv).1 (by decide),
   ((beginDivisor_unguarded hmmDiv).2.2 (by decide)).1⟩

/-- Claim C9: the builder asserts, at the last position and for every
residue, that the insert emission written there (the profile's
PostAlignInsertion) equals the position-0 insert emission (the profile's
PreAlignInsertion); so the assert holds exactly when the two emission
distributions are identical, and fires on any profile where they differ. -/
theorem insAssert_iff_emissions_identical {K : ℕ} (p : GaloshProfile K)
    (h : 1 ≤ p.length) :
    profillicInsAssert p
      ↔ ∀ r : Fin K, p.postAlignInsertion r = p.preAlignInsertion r := by
  have hM : ¬ p.length = 0 := by omega
  unfold profillicInsAssert
  simp [rawHmmOfProfile, hM]

/-- A concrete profile of length 1 whose pre-align and post-align insertion
emissions differ. -/
def pBad : GaloshProfile 2 where
  length := 1
  preAlignInsertion := fun r => if (r : ℕ) = 0 then 1/4 else 3/4
  postAlignInsertion := fun r => if (r : ℕ) = 0 then 1/2 else 1/2

theorem insAssert_iff_emissions_identical_witness :
    ¬ profillicInsAssert pBad := fun hA => by
  have h2 := (insAssert_iff_emissions_identical pBad (by decide)).mp hA 0
  norm_num [pBad] at h2

/-- Claim C4: for every profile of length ≥ 1, ProfileToHMM sets the
position-0 Match-Insert and Insert-Insert probabilities both to
`fromPreAlign.toPreAlign`, sets position-0 Insert-Match to its complement,
and copies the PreAlignInsertion emission verbatim into the position-0
insert emission. -/
theorem builder_position0_assignment {K : ℕ} (p : GaloshProfile K)
    (h : 1 ≤ p.length) :
    (profillic_p7_Profillicmodelmaker p).map
        (fun hm => (hm.t 0 p7H_MI, hm.t 0 p7H_II, hm.t 0 p7H_IM,
                    fun r => hm.ins 0 r))
      = some (p.fromPreAlignToPreAlign, p.fromPreAlignToPreAlign,
              1 - p.fromPreAlignToPreAlign, p.preAlignInsertion) := by
  have hM : ¬ p.length = 0 := by omega
  rw [profillic_p7_Profillicmodelmaker, if_neg hM]
  simp [rawHmmOfProfile, p7H_MI, p7H_II, p7H_IM]

/-- A concrete profile of length 2 used as witness input for the builder. -/
def pGood : GaloshProfile 2 where
  length := 2
  matchEmission := fun _ _ => 1/2
  preAlignInsertion := fun r => if (r : ℕ) = 0 then 1/4 else 3/4
  insertionEmission := fun _ => 1/2
  postAlignInsertion := fun r => if (r : ℕ) = 0 then 1/4 else 3/4
  fromPreAlignToPreAlign := 3/10
  fromPreAlignToBegin := 7/10
  fromBeginToMatch := 4/5
  fromBeginToDeletion := 1/5
  fromMatchToMatch := 1/2
  fromMatchToInsertion := 3/10
  fromMatchToDeletion := 1/5
  fromInsertionToMatch := 2/5
  fromInsertionToInsertion := 3/5
  fromDeletionToMatch := 7/10
  fromDeletionToDeletion := 3/10
  fromPostAlignToPostAlign := 2/5
  fromPostAlignToTerminal := 3/5

theorem builder_position0_assignment_witness :
    (profillic_p7_Profillicmodelmaker pGood).map
        (fun hm => (hm.t 0 p7H_MI, hm.t 0 p7H_II, hm.t 0 p7H_IM,
                    fun r => hm.ins 0 r))
      = some (pGood.fromPreAlignToPreAlign, pGood.fromPreAlignToPreAlign,
              1 - pGood.fromPreAlignToPreAlign, pGood.preAlignInsertion) :=
  builder_position0_assignment pGood (by decide)

theorem norm2_sum {a b : ℚ} (h : 0 < a + b) :
    normalizedEntry a (a + b) 0 + normalizedEntry b (a + b) 0 = 1 := by
  rw [normalizedEntry_of_pos h, normalizedEntry_of_pos h, div_add_div_same,
    div_self (ne_of_gt h)]

theorem norm3_sum {a b c : ℚ} (h : 0 < a + b + c) :
    normalizedEntry a (a + b + c) 0 + normalizedEntry b (a + b + c) 0
      + normalizedEntry c (a + b + c) 0 = 1 := by
  rw [normalizedEntry_of_pos h, normalizedEntry_of_pos h,
    normalizedEntry_of_pos h, div_add_div_same, div_add_div_same,
    div_self (ne_of_gt h)]

theorem normRow_sum {K : ℕ} (v : Fin K → ℚ) (h : 0 < ∑ r, v r) :
    ∑ r, normalizedEntry (v r) (∑ r', v r') 0 = 1 := by
  simp only [normalizedEntry_of_pos h]
  rw [← Finset.sum_div, div_self (ne_of_gt h)]

/-- Claim C2 as stated is false: `hmmA` (M = 1, so no interior positions)
is accepted by HMMToProfile, yet the returned profile's fromMatch
transition group sums to 0, not 1 — the zero accumulation stays the zero
vector through `normalize( 0 )`, and 0 misses 1 by far more than 1e-6. -/
theorem convert_group_sums_counterexample :
    (convert_to_galosh_profile hmmA).map
        (fun p => p.fromMatchToMatch + p.fromMatchToInsertion
          + p.fromMatchToDeletion)
      = some 0
    ∧ ((0 : ℚ) + 1/1000000 < 1) := by
  constructor
  · rw [show convert_to_galosh_profile hmmA
        = some ((rawProfileOfHmm hmmA).normalize 0) from rfl]
    simp [GaloshProfile.normalize, rawProfileOfHmm, normalizedEntry, hmmA]
  · norm_num

/-- Claim C2 amended: for every accepted input, every named transition
group and every emission distribution of the returned profile whose
pre-normalization (accumulated or copied) sum is positive sums to exactly
1; the fromBegin and fromPostAlign groups always do.  (Zero-sum groups —
e.g. the three interior-accumulated groups whenever M = 1 — are left as the
zero vector by `normalize( 0 )` and sum to 0, as the counterexample
shows.) -/
theorem convert_group_sums_amended {K : ℕ} (hmm : P7HMM K) (h : 1 ≤ hmm.M)
    (hPre : 0 < hmm.t 0 p7H_II + hmm.t 0 p7H_IM)
    (hMat : ∀ pos, pos < hmm.M → 0 < ∑ r, hmm.mat (pos + 1) r)
    (hIns0 : 0 < ∑ r, hmm.ins 0 r)
    (hInsM : 0 < ∑ r, hmm.ins hmm.M r)
    (hInsAcc : 0 < ∑ r, ∑ p ∈ Finset.range (hmm.M - 1), hmm.ins (p + 1) r)
    (hMsum : 0 < ∑ p ∈ Finset.range (hmm.M - 1),
        (hmm.t (p + 1) p7H_MM + hmm.t (p + 1) p7H_MI + hmm.t (p + 1) p7H_MD))
    (hIsum : 0 < ∑ p ∈ Finset.range (hmm.M - 1),
        (hmm.t (p + 1) p7H_IM + hmm.t (p + 1) p7H_II))
    (hDsum : 0 < ∑ p ∈ Finset.range (hmm.M - 1),
        (hmm.t (p + 1) p7H_DM + hmm.t (p + 1) p7H_DD)) :
    ∀ q, convert_to_galosh_profile hmm = some q →
      (q.fromPreAlignToPreAlign + q.fromPreAlignToBegin = 1)
      ∧ (q.fromBeginToMatch + q.fromBeginToDeletion = 1)
      ∧ (q.fromMatchToMatch + q.fromMatchToInsertion
          + q.fromMatchToDeletion = 1)
      ∧ (q.fromInsertionToMatch + q.fromInsertionToInsertion = 1)
      ∧ (q.fromDeletionToMatch + q.fromDeletionToDeletion = 1)
      ∧ (q.fromPostAlignToPostAlign + q.fromPostAlignToTerminal = 1)
      ∧ (∀ pos, pos < hmm.M → ∑ r, q.matchEmission pos r = 1)
      ∧ (∑ r, q.preAlignInsertion r = 1)
      ∧ (∑ r, q.insertionEmission r = 1)
      ∧ (∑ r, q.postAlignInsertion r = 1) := by
  intro q hq
  have hM0 : ¬ hmm.M = 0 := by omega
  rw [convert_to_galosh_profile, if_neg hM0, Option.some_inj] at hq
  simp only [Finset.sum_add_distrib] at hMsum hIsum hDsum
  subst hq
  refine ⟨norm2_sum hPre, ?_, norm3_sum hMsum, norm2_sum hIsum,
    norm2_sum hDsum, ?_, fun pos hpos => normRow_sum _ (hMat pos hpos),
    normRow_sum _ hIns0, normRow_sum _ hInsAcc, normRow_sum _ hInsM⟩
  · have h1 : (rawProfileOfHmm hmm).fromBeginToMatch
        + (rawProfileOfHmm hmm).fromBeginToDeletion = 1 := by
      simp [rawProfileOfHmm]
    show normalizedEntry (rawProfileOfHmm hmm).fromBeginToMatch
        ((rawProfileOfHmm hmm).fromBeginToMatch
          + (rawProfileOfHmm hmm).fromBeginToDeletion) 0
      + normalizedEntry (rawProfileOfHmm hmm).fromBeginToDeletion
        ((rawProfileOfHmm hmm).fromBeginToMatch
          + (rawProfileOfHmm hmm).fromBeginToDeletion) 0 = 1
    exact norm2_sum (by rw [h1]; norm_num)
  · have h1 : (rawProfileOfHmm hmm).fromPostAlignToPostAlign
        + (rawProfileOfHmm hmm).fromPostAlignToTerminal = 1 := by
      simp [rawProfileOfHmm]
    show normalizedEntry (rawProfileOfHmm hmm).fromPostAlignToPostAlign
        ((rawProfileOfHmm hmm).fromPostAlignToPostAlign
          + (rawProfileOfHmm hmm).fromPostAlignToTerminal) 0
      + normalizedEntry (rawProfileOfHmm hmm).fromPostAlignToTerminal
        ((rawProfileOfHmm hmm).fromPostAlignToPostAlign
          + (rawProfileOfHmm hmm).fromPostAlignToTerminal) 0 = 1
    exact norm2_sum (by rw [h1]; norm_num)

/-- A concrete 2-residue, 2-match-state HMM with strictly positive rows,
used as witness input for the amended C2 statement. -/
def hmmC2 : P7HMM 2 where
  M := 2
  t := fun k i =>
    if k = 0 then
      if i = p7H_MM then 1/3 else if i = p7H_MI then 1/3
      else if i = p7H_MD then 1/3
      else if i = p7H_IM then 1/2 else if i = p7H_II then 1/2 else 0
    else if k = 1 then
      if i = p7H_MM then 1/2 else if i = p7H_MI then 1/4
      else if i = p7H_MD then 1/4
      else 1/2
    else
      if i = p7H_IM then 1/2 else if i = p7H_II then 1/2 else 0
  mat := fun _ _ => 1/2
  ins := fun _ _ => 1/2

theorem convert_group_sums_amended_witness :
    ((rawProfileOfHmm hmmC2).normalize 0).fromPreAlignToPreAlign
      + ((rawProfileOfHmm hmmC2).normalize 0).fromPreAlignToBegin = 1
    ∧ ((rawProfileOfHmm hmmC2).normalize 0).fromMatchToMatch
      + ((rawProfileOfHmm hmmC2).normalize 0).fromMatchToInsertion
      + ((rawProfileOfHmm hmmC2).normalize 0).fromMatchToDeletion = 1 := by
  have h := convert_group_sums_amended hmmC2 (by decide)
    (by show (0:ℚ) < 1/2 + 1/2; norm_num)
    (by intro pos hpos; show (0:ℚ) < 1/2 + (1/2 + 0); norm_num)
    (by show (0:ℚ) < 1/2 + (1/2 + 0); norm_num)
    (by show (0:ℚ) < 1/2 + (1/2 + 0); norm_num)
    (by show (0:ℚ) < (1/2 + 0) + ((1/2 + 0) + 0); norm_num)
    (by show (0:ℚ) < 1/2 + 1/4 + 1/4 + 0; norm_num)
    (by show (0:ℚ) < 1/2 + 1/2 + 0; norm_num)
    (by show (0:ℚ) < 1/2 + 1/2 + 0; norm_num)
    ((rawProfileOfHmm hmmC2).normalize 0) rfl
  exact ⟨h.1, h.2.2.1⟩

theorem convert_eq_some {K : ℕ} {hmm : P7HMM K} (h : ¬ hmm.M = 0) :
    convert_to_galosh_profile hmm
      = some ((rawProfileOfHmm hmm).normalize 0) := by
  rw [convert_to_galosh_profile, if_neg h]

theorem builder_eq_some {K : ℕ} {p : GaloshProfile K} (h : ¬ p.length = 0) :
    profillic_p7_Profillicmodelmaker p = some (rawHmmOfProfile p) := by
  rw [profillic_p7_Profillicmodelmaker, if_neg h]

theorem rawHmmOfProfile_t_interior {K : ℕ} (p : GaloshProfile K) (k : ℕ)
    (h1 : 1 ≤ k) (h2 : k < p.length) (i : Fin 7) :
    (rawHmmOfProfile p).t k i =
      if i = p7H_MM then p.fromMatchToMatch
      else if i = p7H_MI then p.fromMatchToInsertion
      else if i = p7H_MD then p.fromMatchToDeletion
      else if i = p7H_IM then p.fromInsertionToMatch
      else if i = p7H_II then p.fromInsertionToInsertion
      else if i = p7H_DM then p.fromDeletionToMatch
      else p.fromDeletionToDeletion := by
  show (if k = 0 then _ else if k = p.length then _
    else if k < p.length then _ else 0) = _
  rw [if_neg (by omega), if_neg (by omega), if_pos h2]

theorem normalizedEntry_scaled {c x s : ℚ} (hc : 0 < c) (hs : s = c) :
    normalizedEntry (c * x) s 0 = x := by
  rw [hs, normalizedEntry_of_pos hc, mul_div_cancel_left₀ _ (ne_of_gt hc)]

/-- Claim C1: for every HMM with `M ≥ 2` whose interior transition vectors
(positions `1..M-1`) are all identical and whose three transition groups
there are normalized, converting to a galosh profile and back reproduces
the original transition vector at every interior position exactly (hence
within any floating-point tolerance): the interior accumulation, group
normalization and broadcast compose to the identity on already-uniform
input. -/
theorem roundtrip_unified_interior {K : ℕ} (hmm : P7HMM K) (h2 : 2 ≤ hmm.M)
    (hId : ∀ k, k < hmm.M → 1 ≤ k → ∀ i : Fin 7, hmm.t k i = hmm.t 1 i)
    (hMn : hmm.t 1 p7H_MM + hmm.t 1 p7H_MI + hmm.t 1 p7H_MD = 1)
    (hIn : hmm.t 1 p7H_IM + hmm.t 1 p7H_II = 1)
    (hDn : hmm.t 1 p7H_DM + hmm.t 1 p7H_DD = 1)
    (k : ℕ) (hk1 : 1 ≤ k) (hk2 : k < hmm.M) (i : Fin 7) :
    ((convert_to_galosh_profile hmm).bind profillic_p7_Profillicmodelmaker).map
        (fun hmm2 => hmm2.t k i)
      = some (hmm.t k i) := by
  have hM0 : ¬ hmm.M = 0 := by omega
  have hc : (0:ℚ) < ((hmm.M - 1 : ℕ) : ℚ) := by
    have h3 : 0 < hmm.M - 1 := by omega
    exact_mod_cast h3
  have hsum : ∀ j : Fin 7,
      (∑ p ∈ Finset.range (hmm.M - 1), hmm.t (p + 1) j)
        = ((hmm.M - 1 : ℕ) : ℚ) * hmm.t 1 j := by
    intro j
    have hcg : ∀ p ∈ Finset.range (hmm.M - 1), hmm.t (p + 1) j = hmm.t 1 j := by
      intro p hp
      have hp' := Finset.mem_range.mp hp
      exact hId (p + 1) (by omega) (by omega) j
    rw [Finset.sum_congr rfl hcg, Finset.sum_const, Finset.card_range,
      nsmul_eq_mul]
  rw [convert_eq_some hM0, Option.some_bind, builder_eq_some hM0,
    Option.map_some', Option.some_inj,
    rawHmmOfProfile_t_interior _ k hk1 hk2, hId k hk2 hk1 i]
  set c : ℚ := ((hmm.M - 1 : ℕ) : ℚ) with hcdef
  fin_cases i
  · rw [if_pos (by decide)]
    show normalizedEntry (∑ p ∈ Finset.range (hmm.M - 1), hmm.t (p + 1) p7H_MM)
        (∑ p ∈ Finset.range (hmm.M - 1), hmm.t (p + 1) p7H_MM
          + ∑ p ∈ Finset.range (hmm.M - 1), hmm.t (p + 1) p7H_MI
          + ∑ p ∈ Finset.range (hmm.M - 1), hmm.t (p + 1) p7H_MD) 0
      = hmm.t 1 p7H_MM
    rw [hsum p7H_MM, hsum p7H_MI, hsum p7H_MD]
    exact normalizedEntry_scaled hc (by linear_combination c * hMn)
  · rw [if_neg (by decide), if_pos (by decide)]
    show normalizedEntry (∑ p ∈ Finset.range (hmm.M - 1), hmm.t (p + 1) p7H_MI)
        (∑ p ∈ Finset.range (hmm.M - 1), hmm.t (p + 1) p7H_MM
          + ∑ p ∈ Finset.range (hmm.M - 1), hmm.t (p + 1) p7H_MI
          + ∑ p ∈ Finset.range (hmm.M - 1), hmm.t (p + 1) p7H_MD) 0
      = hmm.t 1 p7H_MI
    rw [hsum p7H_MM, hsum p7H_MI, hsum p7H_MD]
    exact normalizedEntry_scaled hc (by linear_combination c * hMn)
  · rw [if_neg (by decide), if_neg (by decide), if_pos (by decide)]
    show normalizedEntry (∑ p ∈ Finset.range (hmm.M - 1), hmm.t (p + 1) p7H_MD)
        (∑ p ∈ Finset.range (hmm.M - 1), hmm.t (p + 1) p7H_MM
          + ∑ p ∈ Finset.range (hmm.M - 1), hmm.t (p + 1) p7H_MI
          + ∑ p ∈ Finset.range (hmm.M - 1), hmm.t (p + 1) p7H_MD) 0
      = hmm.t 1 p7H_MD
    rw [hsum p7H_MM, hsum p7H_MI, hsum p7H_MD]
    exact normalizedEntry_scaled hc (by linear_combination c * hMn)
  · rw [if_neg (by decide), if_neg (by decide), if_neg (by decide),
      if_pos (by decide)]
    show normalizedEntry (∑ p ∈ Finset.range (hmm.M - 1), hmm.t (p + 1) p7H_IM)
        (∑ p ∈ Finset.range (hmm.M - 1), hmm.t (p + 1) p7H_IM
          + ∑ p ∈ Finset.range (hmm.M - 1), hmm.t (p + 1) p7H_II) 0
      = hmm.t 1 p7H_IM
    rw [hsum p7H_IM, hsum p7H_II]
    exact normalizedEntry_scaled hc (by linear_combination c * hIn)
  · rw [if_neg (by decide), if_neg (by decide), if_neg (by decide),
      if_neg (by decide), if_pos (by decide)]
    show normalizedEntry (∑ p ∈ Finset.range (hmm.M - 1), hmm.t (p + 1) p7H_II)
        (∑ p ∈ Finset.range (hmm.M - 1), hmm.t (p + 1) p7H_IM
          + ∑ p ∈ Finset.range (hmm.M - 1), hmm.t (p + 1) p7H_II) 0
      = hmm.t 1 p7H_II
    rw [hsum p7H_IM, hsum p7H_II]
    exact normalizedEntry_scaled hc (by linear_combination c * hIn)
  · rw [if_neg (by decide), if_neg (by decide), if_neg (by decide),
      if_neg (by decide), if_neg (by decide), if_pos (by decide)]
    show normalizedEntry (∑ p ∈ Finset.range (hmm.M - 1), hmm.t (p + 1) p7H_DM)
        (∑ p ∈ Finset.range (hmm.M - 1), hmm.t (p + 1) p7H_DM
          + ∑ p ∈ Finset.range (hmm.M - 1), hmm.t (p + 1) p7H_DD) 0
      = hmm.t 1 p7H_DM
    rw [hsum p7H_DM, hsum p7H_DD]
    exact normalizedEntry_scaled hc (by linear_combination c * hDn)
  · rw [if_neg (by decide), if_neg (by decide), if_neg (by decide),
      if_neg (by decide), if_neg (by decide), if_neg (by decide)]
    show normalizedEntry (∑ p ∈ Finset.range (hmm.M - 1), hmm.t (p + 1) p7H_DD)
        (∑ p ∈ Finset.range (hmm.M - 1), hmm.t (p + 1) p7H_DM
          + ∑ p ∈ Finset.range (hmm.M - 1), hmm.t (p + 1) p7H_DD) 0
      = hmm.t 1 p7H_DD
    rw [hsum p7H_DM, hsum p7H_DD]
    exact normalizedEntry_scaled hc (by linear_combination c * hDn)

theorem roundtrip_unified_interior_witness :
    ((convert_to_galosh_profile hmmC2).bind profillic_p7_Profillicmodelmaker).map
        (fun hmm2 => hmm2.t 1 p7H_MM)
      = some (hmmC2.t 1 p7H_MM) :=
  roundtrip_unified_interior hmmC2 (by decide)
    (by
      intro k hk hk1 i
      rw [show hmmC2.M = 2 from rfl] at hk
      have hk' : k = 1 := by omega
      subst hk'
      rfl)
    (by show (1:ℚ)/2 + 1/4 + 1/4 = 1; norm_num)
    (by show (1:ℚ)/2 + 1/2 = 1; norm_num)
    (by show (1:ℚ)/2 + 1/2 = 1; norm_num)
    1 (by decide) (by decide) p7H_MM

/-! ## Transition unification (src/profillic-hmmunifytransitions.cpp) -/

attribute [ext] P7HMM

/-- The summed interior transition vector of the unify tool:
`esl_vec_FAdd( average_internal_transitions, hmm->t[ k ], 7 )` over
`k = 1 .. M-1` starting from the zero vector. -/
def average_internal_transitions {K : ℕ} (hmm : P7HMM K) (i : Fin 7) : ℚ :=
  ∑ k ∈ Finset.range (hmm.M - 1), hmm.t (k + 1) i

/-- The accumulated vector after the three `esl_vec_FNorm` calls: Match
triplet (slots 0-2), Insert pair (3-4) and Delete pair (5-6) normalized
independently.  The `esl_vec_FNorm` row normalization itself is external
easel code, modelled from the spec as `normalizeRow` with floor 0. -/
def unifiedVector {K : ℕ} (hmm : P7HMM K) (i : Fin 7) : ℚ :=
  if (i : ℕ) ≤ 2 then
    normalizedEntry (average_internal_transitions hmm i)
      (average_internal_transitions hmm 0 + average_internal_transitions hmm 1
        + average_internal_transitions hmm 2) 0
  else if (i : ℕ) ≤ 4 then
    normalizedEntry (average_internal_transitions hmm i)
      (average_internal_transitions hmm 3 + average_internal_transitions hmm 4) 0
  else
    normalizedEntry (average_internal_transitions hmm i)
      (average_internal_transitions hmm 5 + average_internal_transitions hmm 6) 0

/-- The per-model transformation of the unify tool's main loop: broadcast
(`esl_vec_FCopy`) the normalized average vector into every interior
position `1..M-1`, leaving positions 0 and M, and all emissions,
untouched. -/
def unifyTransitions {K : ℕ} (hmm : P7HMM K) : P7HMM K :=
  { hmm with
    t := fun k i =>
      if 1 ≤ k ∧ k < hmm.M then unifiedVector hmm i else hmm.t k i }

theorem unified_group3_fix {c a0 a1 a2 x : ℚ} (hc : 0 < c)
    (h0 : 0 ≤ a0) (h1 : 0 ≤ a1) (h2 : 0 ≤ a2)
    (hx : x = a0 ∨ x = a1 ∨ x = a2) :
    normalizedEntry (c * normalizedEntry x (a0 + a1 + a2) 0)
      (c * normalizedEntry a0 (a0 + a1 + a2) 0
        + c * normalizedEntry a1 (a0 + a1 + a2) 0
        + c * normalizedEntry a2 (a0 + a1 + a2) 0) 0
      = normalizedEntry x (a0 + a1 + a2) 0 := by
  by_cases hs : a0 + a1 + a2 ≤ 0
  · have e0 : a0 = 0 := le_antisymm (by linarith) h0
    have e1 : a1 = 0 := le_antisymm (by linarith) h1
    have e2 : a2 = 0 := le_antisymm (by linarith) h2
    have ex : x = 0 := by rcases hx with h | h | h <;> rw [h] <;> assumption
    rw [e0, e1, e2, ex]
    simp [normalizedEntry]
  · have hspos : 0 < a0 + a1 + a2 := not_le.mp hs
    exact normalizedEntry_scaled hc (by linear_combination c * norm3_sum hspos)

theorem unified_group2_fix {c a0 a1 x : ℚ} (hc : 0 < c)
    (h0 : 0 ≤ a0) (h1 : 0 ≤ a1) (hx : x = a0 ∨ x = a1) :
    normalizedEntry (c * normalizedEntry x (a0 + a1) 0)
      (c * normalizedEntry a0 (a0 + a1) 0
        + c * normalizedEntry a1 (a0 + a1) 0) 0
      = normalizedEntry x (a0 + a1) 0 := by
  by_cases hs : a0 + a1 ≤ 0
  · have e0 : a0 = 0 := le_antisymm (by linarith) h0
    have e1 : a1 = 0 := le_antisymm (by linarith) h1
    have ex : x = 0 := by rcases hx with h | h <;> rw [h] <;> assumption
    rw [e0, e1, ex]
    simp [normalizedEntry]
  · have hspos : 0 < a0 + a1 := not_le.mp hs
    exact normalizedEntry_scaled hc (by linear_combination c * norm2_sum hspos)

/-- Claim C5: the Unify transformation (sum the interior transition
vectors, normalize the Match triplet, Insert pair and Delete pair
independently, broadcast back to every interior position) is idempotent on
every HMM whose interior transition entries are nonnegative (as transition
probabilities are): applying it twice equals applying it once. -/
theorem unify_idempotent {K : ℕ} (hmm : P7HMM K)
    (hNN : ∀ k, k < hmm.M → 1 ≤ k → ∀ i : Fin 7, 0 ≤ hmm.t k i) :
    unifyTransitions (unifyTransitions hmm) = unifyTransitions hmm := by
  set u := unifyTransitions hmm with hu
  refine P7HMM.ext rfl ?_ rfl rfl
  funext k i
  show (if 1 ≤ k ∧ k < u.M then unifiedVector u i else u.t k i) = u.t k i
  by_cases hk : 1 ≤ k ∧ k < u.M
  · rw [if_pos hk]
    have hk2 : k < hmm.M := hk.2
    have hk1 : 1 ≤ k := hk.1
    have hut : u.t k i = unifiedVector hmm i := if_pos ⟨hk1, hk2⟩
    rw [hut]
    have hM2 : 2 ≤ hmm.M := by omega
    have hc : (0:ℚ) < ((hmm.M - 1 : ℕ) : ℚ) := by
      have h3 : 0 < hmm.M - 1 := by omega
      exact_mod_cast h3
    have hAnn : ∀ j : Fin 7, 0 ≤ average_internal_transitions hmm j := by
      intro j
      refine Finset.sum_nonneg ?_
      intro p hp
      have hp' := Finset.mem_range.mp hp
      exact hNN (p + 1) (by omega) (by omega) j
    have havg : ∀ j : Fin 7,
        average_internal_transitions u j
          = ((hmm.M - 1 : ℕ) : ℚ) * unifiedVector hmm j := by
      intro j
      have hcg : ∀ p ∈ Finset.range (u.M - 1),
          u.t (p + 1) j = unifiedVector hmm j := by
        intro p hp
        have hp' : p < hmm.M - 1 := Finset.mem_range.mp hp
        show (if 1 ≤ p + 1 ∧ p + 1 < hmm.M then unifiedVector hmm j
          else hmm.t (p + 1) j) = _
        exact if_pos ⟨by omega, by omega⟩
      show (∑ p ∈ Finset.range (u.M - 1), u.t (p + 1) j) = _
      rw [Finset.sum_congr rfl hcg, Finset.sum_const, Finset.card_range,
        nsmul_eq_mul]
      rfl
    fin_cases i
    · show normalizedEntry (average_internal_transitions u 0)
          (average_internal_transitions u 0 + average_internal_transitions u 1
            + average_internal_transitions u 2) 0 = unifiedVector hmm 0
      rw [havg 0, havg 1, havg 2]
      exact unified_group3_fix hc (hAnn 0) (hAnn 1) (hAnn 2) (Or.inl rfl)
    · show normalizedEntry (average_internal_transitions u 1)
          (average_internal_transitions u 0 + average_internal_transitions u 1
            + average_internal_transitions u 2) 0 = unifiedVector hmm 1
      rw [havg 0, havg 1, havg 2]
      exact unified_group3_fix hc (hAnn 0) (hAnn 1) (hAnn 2)
        (Or.inr (Or.inl rfl))
    · show normalizedEntry (average_internal_transitions u 2)
          (average_internal_transitions u 0 + average_internal_transitions u 1
            + average_internal_transitions u 2) 0 = unifiedVector hmm 2
      rw [havg 0, havg 1, havg 2]
      exact unified_group3_fix hc (hAnn 0) (hAnn 1) (hAnn 2)
        (Or.inr (Or.inr rfl))
    · show normalizedEntry (average_internal_transitions u 3)
          (average_internal_transitions u 3 + average_internal_transitions u 4)
          0 = unifiedVector hmm 3
      rw [havg 3, havg 4]
      exact unified_group2_fix hc (hAnn 3) (hAnn 4) (Or.inl rfl)
    · show normalizedEntry (average_internal_transitions u 4)
          (average_internal_transitions u 3 + average_internal_transitions u 4)
          0 = unifiedVector hmm 4
      rw [havg 3, havg 4]
      exact unified_group2_fix hc (hAnn 3) (hAnn 4) (Or.inr rfl)
    · show normalizedEntry (average_internal_transitions u 5)
          (average_internal_transitions u 5 + average_internal_transitions u 6)
          0 = unifiedVector hmm 5
      rw [havg 5, havg 6]
      exact unified_group2_fix hc (hAnn 5) (hAnn 6) (Or.inl rfl)
    · show normalizedEntry (average_internal_transitions u 6)
          (average_internal_transitions u 5 + average_internal_transitions u 6)
          0 = unifiedVector hmm 6
      rw [havg 5, havg 6]
      exact unified_group2_fix hc (hAnn 5) (hAnn 6) (Or.inr rfl)
  · rw [if_neg hk]

theorem unify_idempotent_witness :
    unifyTransitions (unifyTransitions hmmC2) = unifyTransitions hmmC2 :=
  unify_idempotent hmmC2 (by
    intro k hk hk1 i
    rw [show hmmC2.M = 2 from rfl] at hk
    have hk' : k = 1 := by omega
    subst hk'
    fin_cases i <;>
      first
        | (show (0:ℚ) ≤ 1/2; norm_num)
        | (show (0:ℚ) ≤ 1/4; norm_num))

/-! ## Calibration loop (src/profillic-hmmcalibrate.cpp) -/

/-- The easel RNG object as the calibrate tool uses it:
`esl_randomness_CreateFast` stores the creation seed (returned by
`esl_randomness_GetSeed`) beside the generator state, and nothing but
`esl_randomness_Init` ever writes the stored seed.  The generator itself is
external easel library code; only this seed/state discipline matters for
the claim, so states are abstracted to `ℕ`. -/
structure EslRandomness where
  seed : ℕ
  state : ℕ

/-- Modelled from the spec: `esl_randomness_CreateFast(seed)` seeds the
generator from `seed`; a seed of 0 means "pick an arbitrary seed" — the
arbitrary choice is the explicit `arb` parameter here. -/
def esl_randomness_CreateFast (arb seed : ℕ) : EslRandomness :=
  if seed = 0 then { seed := arb, state := arb }
  else { seed := seed, state := seed }

/-- Modelled from the spec: `esl_randomness_Init(r, seed)` re-seeds the
generator from `seed`. -/
def esl_randomness_Init (seed : ℕ) : EslRandomness :=
  { seed := seed, state := seed }

/-- The calibrate tool's main loop over the models of the input stream:
`p7_Calibrate` (an external service, the parameter `cal`) consumes and
advances the generator state; afterwards, when `do_reseeding` is set, the
RNG is re-initialized to its stored original seed
(`esl_randomness_Init(r, esl_randomness_GetSeed(r))`). -/
def calibrateLoop (cal : ℕ → ℕ → ℕ × ℕ) (reseed : Bool) :
    EslRandomness → List ℕ → List ℕ
  | _, [] => []
  | r, m :: ms =>
    let res := cal m r.state
    let r2 : EslRandomness := { seed := r.seed, state := res.2 }
    let r3 := if reseed then esl_randomness_Init r2.seed else r2
    res.1 :: calibrateLoop cal reseed r3 ms

/-- The calibrate tool's driver: create the RNG from `--seed` (arbitrary
when 0), set `do_reseeding = (seed == 0) ? FALSE : TRUE`, and run the
per-model loop. -/
def profillic_hmmcalibrate (cal : ℕ → ℕ → ℕ × ℕ) (arb seed : ℕ)
    (models : List ℕ) : List ℕ :=
  calibrateLoop cal (if seed = 0 then false else true)
    (esl_randomness_CreateFast arb seed) models

/-- Reference chain: calibrate each model with the state left behind by its
predecessor, never resetting. -/
def calibrateChain (cal : ℕ → ℕ → ℕ × ℕ) : ℕ → List ℕ → List ℕ
  | _, [] => []
  | st, m :: ms => (cal m st).1 :: calibrateChain cal (cal m st).2 ms

theorem calibrateLoop_reseed (cal : ℕ → ℕ → ℕ × ℕ) (s : ℕ) :
    ∀ ms : List ℕ, calibrateLoop cal true ⟨s, s⟩ ms
      = ms.map (fun m => (cal m s).1)
  | [] => rfl
  | m :: ms => by
    show (cal m s).1 :: calibrateLoop cal true ⟨s, s⟩ ms = _
    rw [calibrateLoop_reseed cal s ms, List.map_cons]

theorem calibrateLoop_noreseed (cal : ℕ → ℕ → ℕ × ℕ) :
    ∀ (ms : List ℕ) (sd st : ℕ), calibrateLoop cal false ⟨sd, st⟩ ms
      = calibrateChain cal st ms
  | [], _, _ => rfl
  | m :: ms, sd, st => by
    show (cal m st).1 :: calibrateLoop cal false ⟨sd, (cal m st).2⟩ ms = _
    rw [calibrateLoop_noreseed cal ms sd (cal m st).2]
    rfl

/-- Claim C8: with a nonzero `--seed`, the calibrate tool re-initializes
the RNG to the original seed around each model, so every model's
calibration result is computed from the freshly seeded state — it equals a
per-model map, deterministic and independent of how many models preceded it
in the stream.  With seed 0 the RNG is seeded arbitrarily once and never
reset: each model consumes the state its predecessor left (the chain), and
two runs whose arbitrary seeds differ can produce different results for the
same model. -/
theorem calibrate_seed_discipline (cal : ℕ → ℕ → ℕ × ℕ) (arb seed : ℕ)
    (models : List ℕ) :
    (seed ≠ 0 →
      profillic_hmmcalibrate cal arb seed models
        = models.map (fun m => (cal m seed).1))
    ∧ (profillic_hmmcalibrate cal arb 0 models
        = calibrateChain cal arb models)
    ∧ (∃ cal2 : ℕ → ℕ → ℕ × ℕ, ∃ m a1 a2 : ℕ,
        profillic_hmmcalibrate cal2 a1 0 [m]
          ≠ profillic_hmmcalibrate cal2 a2 0 [m]) := by
  refine ⟨fun hs => ?_, ?_, ?_⟩
  · rw [profillic_hmmcalibrate, if_neg hs, esl_randomness_CreateFast,
      if_neg hs, calibrateLoop_reseed]
  · rw [profillic_hmmcalibrate, if_pos rfl, esl_randomness_CreateFast,
      if_pos rfl, calibrateLoop_noreseed]
  · exact ⟨fun _ st => (st, st), 0, 0, 1, by decide⟩

theorem calibrate_seed_discipline_witness :
    profillic_hmmcalibrate (fun m st => (m + st, st + 1)) 9 5 [10, 20]
      = [15, 25] := by
  rw [(calibrate_seed_discipline (fun m st => (m + st, st + 1)) 9 5
    [10, 20]).1 (by decide)]
  rfl

/-! ## MSA finalization: `verify_parse` (src/unnamed/part_002) -/

/-- The fields of `ESL_MSA` that `verify_parse` reads or finalizes, in text
mode: `aseq`/`sqlen` per sequence, the optional per-sequence SS/SA/PP
tracks with their length counters, the consensus tracks, weights with the
`eslMSA_HASWGTS` flag, and `alen` (set by `verify_parse` from the first
sequence). -/
structure ESL_MSA where
  nseq : ℕ := 0
  name : Option String := none
  sqname : List String := []
  aseq : List (Option String) := []
  sqlen : List ℕ := []
  hasWgts : Bool := false
  wgt : List ℚ := []
  ss : Option (List (Option String)) := none
  sslen : List ℕ := []
  sa : Option (List (Option String)) := none
  salen : List ℕ := []
  pp : Option (List (Option String)) := none
  pplen : List ℕ := []
  ss_cons : Option String := none
  sa_cons : Option String := none
  pp_cons : Option String := none
  rf : Option String := none
  alen : ℕ := 0

/-- The `eslEFORMAT` failures of `verify_parse`, each carrying exactly what
the corresponding `ESL_FAIL` message reports: the sequence name or track
and the mismatched lengths. -/
inductive VerifyErr where
  | noData
  | noSequence (name : String)
  | missingWeight (name : String)
  | seqLength (name : String) (len expected : ℕ)
  | grSS (name : String) (len expected : ℕ)
  | grSA (name : String) (len expected : ℕ)
  | grPP (name : String) (len expected : ℕ)
  | gcSScons (len expected : ℕ)
  | gcSAcons (len expected : ℕ)
  | gcPPcons (len expected : ℕ)
  | gcRF (len expected : ℕ)
  deriving DecidableEq

/-- `msa->ss != NULL && msa->ss[idx] != NULL` for a per-sequence track. -/
def trackHasEntry (t : Option (List (Option String))) (idx : ℕ) : Bool :=
  match t with
  | none => false
  | some l => (l.getD idx none).isSome

/-- One iteration of the per-sequence loop of `verify_parse`: the checks in
source order — sequence data present, weight set when the flag is, aligned
length equals `alen`, and each present SS/SA/PP track length equals
`alen`. -/
def checkSeq (msa : ESL_MSA) (alen idx : ℕ) : Option VerifyErr :=
  if (msa.aseq.getD idx none).isSome = false then
    some (.noSequence (msa.sqname.getD idx ""))
  else if msa.hasWgts = true ∧ msa.wgt.getD idx (-1) = -1 then
    some (.missingWeight (msa.sqname.getD idx ""))
  else if msa.sqlen.getD idx 0 ≠ alen then
    some (.seqLength (msa.sqname.getD idx "") (msa.sqlen.getD idx 0) alen)
  else if trackHasEntry msa.ss idx = true ∧ msa.sslen.getD idx 0 ≠ alen then
    some (.grSS (msa.sqname.getD idx "") (msa.sslen.getD idx 0) alen)
  else if trackHasEntry msa.sa idx = true ∧ msa.salen.getD idx 0 ≠ alen then
    some (.grSA (msa.sqname.getD idx "") (msa.salen.getD idx 0) alen)
  else if trackHasEntry msa.pp idx = true ∧ msa.pplen.getD idx 0 ≠ alen then
    some (.grPP (msa.sqname.getD idx "") (msa.pplen.getD idx 0) alen)
  else none

/-- The per-sequence loop over indices `0 .. n-1`, returning its first
error. -/
def firstSeqErr (msa : ESL_MSA) (alen : ℕ) : ℕ → Option VerifyErr
  | 0 => none
  | n + 1 =>
    match firstSeqErr msa alen n with
    | some e => some e
    | none => checkSeq msa alen n

/-- A consensus track is present with the wrong length. -/
def consBad (t : Option String) (alen : ℕ) : Bool :=
  match t with
  | none => false
  | some s => s.length != alen

/-- The consensus-track checks of `verify_parse`, in source order:
SS_cons, SA_cons, PP_cons, RF. -/
def consErr (msa : ESL_MSA) (alen : ℕ) : Option VerifyErr :=
  if consBad msa.ss_cons alen then
    some (.gcSScons (msa.ss_cons.getD "").length alen)
  else if consBad msa.sa_cons alen then
    some (.gcSAcons (msa.sa_cons.getD "").length alen)
  else if consBad msa.pp_cons alen then
    some (.gcPPcons (msa.pp_cons.getD "").length alen)
  else if consBad msa.rf alen then
    some (.gcRF (msa.rf.getD "").length alen)
  else none

/-- `verify_parse`: fail on zero sequences; set `alen` from the first
sequence; run the per-sequence and consensus length checks; default all
weights to 1.0 when none were supplied; release the temporary per-sequence
length counters. -/
def verify_parse (msa : ESL_MSA) : Except VerifyErr ESL_MSA :=
  if msa.nseq = 0 then .error .noData
  else
    match firstSeqErr msa (msa.sqlen.getD 0 0) msa.nseq with
    | some e => .error e
    | none =>
      match consErr msa (msa.sqlen.getD 0 0) with
      | some e => .error e
      | none =>
        .ok { msa with
          alen := msa.sqlen.getD 0 0,
          wgt := if msa.hasWgts then msa.wgt
            else List.replicate msa.nseq 1,
          sqlen := [], sslen := [], salen := [], pplen := [] }

theorem firstSeqErr_none_iff (msa : ESL_MSA) (alen : ℕ) :
    ∀ n, firstSeqErr msa alen n = none
      ↔ ∀ i, i < n → checkSeq msa alen i = none := by
  intro n
  induction n with
  | zero => simp [firstSeqErr]
  | succ n ih =>
    rw [firstSeqErr]
    cases h : firstSeqErr msa alen n with
    | some e =>
      constructor
      · intro hc; exact absurd hc (by simp)
      · intro hall
        exfalso
        have h2 : firstSeqErr msa alen n = none :=
          ih.mpr (fun i hi => hall i (by omega))
        rw [h] at h2
        exact Option.noConfusion h2
    | none =>
      constructor
      · intro hc i hi
        rcases Nat.lt_succ_iff_lt_or_eq.mp hi with h' | h'
        · exact ih.mp h i h'
        · subst h'; exact hc
      · intro hall
        exact hall n (Nat.lt_succ_self n)

theorem checkSeq_none_facts {msa : ESL_MSA} {alen idx : ℕ}
    (h : checkSeq msa alen idx = none) :
    (msa.aseq.getD idx none).isSome = true
    ∧ (msa.hasWgts = true → ¬ msa.wgt.getD idx (-1) = -1)
    ∧ msa.sqlen.getD idx 0 = alen
    ∧ (trackHasEntry msa.ss idx = true → msa.sslen.getD idx 0 = alen)
    ∧ (trackHasEntry msa.sa idx = true → msa.salen.getD idx 0 = alen)
    ∧ (trackHasEntry msa.pp idx = true → msa.pplen.getD idx 0 = alen) := by
  unfold checkSeq at h
  split_ifs at h with h1 h2 h3 h4 h5 h6
  refine ⟨?_, ?_, ?_, ?_, ?_, ?_⟩
  · cases hb : (msa.aseq.getD idx none).isSome
    · exact absurd hb h1
    · rfl
  · exact fun hw he => h2 ⟨hw, he⟩
  · exact not_not.mp h3
  · exact fun ht => not_not.mp (fun hne => h4 ⟨ht, hne⟩)
  · exact fun ht => not_not.mp (fun hne => h5 ⟨ht, hne⟩)
  · exact fun ht => not_not.mp (fun hne => h6 ⟨ht, hne⟩)

theorem consBad_false {t : Option String} {alen : ℕ}
    (h : ¬ consBad t alen = true) :
    ∀ s, t = some s → s.length = alen := by
  intro s hs
  rw [hs] at h
  simpa [consBad] using h

theorem consErr_none_facts {msa : ESL_MSA} {alen : ℕ}
    (h : consErr msa alen = none) :
    (∀ s, msa.ss_cons = some s → s.length = alen)
    ∧ (∀ s, msa.sa_cons = some s → s.length = alen)
    ∧ (∀ s, msa.pp_cons = some s → s.length = alen)
    ∧ (∀ s, msa.rf = some s → s.length = alen) := by
  unfold consErr at h
  split_ifs at h with h1 h2 h3 h4
  exact ⟨consBad_false h1, consBad_false h2, consBad_false h3,
    consBad_false h4⟩

theorem verify_parse_ok_facts (msa : ESL_MSA) (out : ESL_MSA)
    (hout : verify_parse msa = .ok out) :
    1 ≤ msa.nseq
    ∧ out.alen = msa.sqlen.getD 0 0
    ∧ (∀ i, i < msa.nseq → msa.sqlen.getD i 0 = out.alen)
    ∧ (∀ i, i < msa.nseq → trackHasEntry msa.ss i = true →
        msa.sslen.getD i 0 = out.alen)
    ∧ (∀ i, i < msa.nseq → trackHasEntry msa.sa i = true →
        msa.salen.getD i 0 = out.alen)
    ∧ (∀ i, i < msa.nseq → trackHasEntry msa.pp i = true →
        msa.pplen.getD i 0 = out.alen)
    ∧ (∀ s, msa.ss_cons = some s → s.length = out.alen)
    ∧ (∀ s, msa.sa_cons = some s → s.length = out.alen)
    ∧ (∀ s, msa.pp_cons = some s → s.length = out.alen)
    ∧ (∀ s, msa.rf = some s → s.length = out.alen)
    ∧ (msa.hasWgts = false → ∀ i, i < msa.nseq → out.wgt.getD i 0 = 1) := by
  by_cases h0 : msa.nseq = 0
  · rw [verify_parse, if_pos h0] at hout
    exact absurd hout (by simp)
  · rw [verify_parse, if_neg h0] at hout
    cases h1 : firstSeqErr msa (msa.sqlen.getD 0 0) msa.nseq with
    | some e => rw [h1] at hout; exact absurd hout (by simp)
    | none =>
      rw [h1] at hout
      cases h2 : consErr msa (msa.sqlen.getD 0 0) with
      | some e => rw [h2] at hout; exact absurd hout (by simp)
      | none =>
        rw [h2] at hout
        have hseq := (firstSeqErr_none_iff msa (msa.sqlen.getD 0 0)
          msa.nseq).mp h1
        have hcons := consErr_none_facts h2
        cases hout
        refine ⟨by omega, rfl, ?_, ?_, ?_, ?_, hcons.1, hcons.2.1,
          hcons.2.2.1, hcons.2.2.2, ?_⟩
        · exact fun i hi => (checkSeq_none_facts (hseq i hi)).2.2.1
        · exact fun i hi ht => (checkSeq_none_facts (hseq i hi)).2.2.2.1 ht
        · exact fun i hi ht =>
            (checkSeq_none_facts (hseq i hi)).2.2.2.2.1 ht
        · exact fun i hi ht =>
            (checkSeq_none_facts (hseq i hi)).2.2.2.2.2 ht
        · intro hw i hi
          show (if msa.hasWgts then msa.wgt
            else List.replicate msa.nseq 1).getD i 0 = 1
          rw [hw]
          simp only [Bool.false_eq_true, if_false]
          rw [List.getD_eq_getElem?_getD, List.getElem?_replicate,
            if_pos hi]
          rfl

theorem firstSeqErr_first (msa : ESL_MSA) (alen : ℕ) {e : VerifyErr} :
    ∀ n i0, i0 < n →
      (∀ j, j < i0 → checkSeq msa alen j = none) →
      checkSeq msa alen i0 = some e →
      firstSeqErr msa alen n = some e := by
  intro n
  induction n with
  | zero => intro i0 h; omega
  | succ n ih =>
    intro i0 hi0 hprev hcs
    rw [firstSeqErr]
    rcases Nat.lt_succ_iff_lt_or_eq.mp hi0 with h' | h'
    · rw [ih i0 h' hprev hcs]
    · subst h'
      rw [(firstSeqErr_none_iff msa alen i0).mpr hprev, hcs]

/-- Claim C7: whenever `verify_parse` succeeds the MSA has at least one
sequence, `alen` is set from the first sequence and equals every sequence's
length and every present per-sequence (SS, SA, PP) and consensus (SS_cons,
SA_cons, PP_cons, RF) track length, and when no explicit weights were
supplied every weight is defaulted to 1.0; a parse with zero sequences
fails with the no-data format error, any sequence-length mismatch makes it
fail, and (when the earlier presence/weight checks pass and no per-sequence
tracks are present) the first mismatched sequence produces exactly the
format error naming that sequence and both lengths. -/
theorem verify_parse_spec (msa : ESL_MSA) :
    (∀ out, verify_parse msa = .ok out →
      1 ≤ msa.nseq
      ∧ out.alen = msa.sqlen.getD 0 0
      ∧ (∀ i, i < msa.nseq → msa.sqlen.getD i 0 = out.alen)
      ∧ (∀ i, i < msa.nseq → trackHasEntry msa.ss i = true →
          msa.sslen.getD i 0 = out.alen)
      ∧ (∀ i, i < msa.nseq → trackHasEntry msa.sa i = true →
          msa.salen.getD i 0 = out.alen)
      ∧ (∀ i, i < msa.nseq → trackHasEntry msa.pp i = true →
          msa.pplen.getD i 0 = out.alen)
      ∧ (∀ s, msa.ss_cons = some s → s.length = out.alen)
      ∧ (∀ s, msa.sa_cons = some s → s.length = out.alen)
      ∧ (∀ s, msa.pp_cons = some s → s.length = out.alen)
      ∧ (∀ s, msa.rf = some s → s.length = out.alen)
      ∧ (msa.hasWgts = false → ∀ i, i < msa.nseq → out.wgt.getD i 0 = 1))
    ∧ (msa.nseq = 0 → verify_parse msa = .error .noData)
    ∧ (∀ i, i < msa.nseq → ¬ msa.sqlen.getD i 0 = msa.sqlen.getD 0 0 →
        ∀ out, ¬ verify_parse msa = .ok out)
    ∧ (∀ i0, i0 < msa.nseq →
        (∀ j, j < msa.nseq → (msa.aseq.getD j none).isSome = true) →
        msa.hasWgts = false → msa.ss = none → msa.sa = none →
        msa.pp = none →
        (∀ j, j < i0 → msa.sqlen.getD j 0 = msa.sqlen.getD 0 0) →
        ¬ msa.sqlen.getD i0 0 = msa.sqlen.getD 0 0 →
        verify_parse msa = .error (.seqLength (msa.sqname.getD i0 "")
          (msa.sqlen.getD i0 0) (msa.sqlen.getD 0 0))) := by
  refine ⟨fun out hout => verify_parse_ok_facts msa out hout,
    fun h0 => by rw [verify_parse, if_pos h0], ?_, ?_⟩
  · intro i hi hne out hout
    have hfacts := verify_parse_ok_facts msa out hout
    exact hne (by rw [hfacts.2.2.1 i hi, hfacts.2.1])
  · intro i0 hi0 hpres hw hss hsa hpp hmin hne
    have hcs : checkSeq msa (msa.sqlen.getD 0 0) i0
        = some (.seqLength (msa.sqname.getD i0 "")
            (msa.sqlen.getD i0 0) (msa.sqlen.getD 0 0)) := by
      unfold checkSeq
      rw [if_neg (by rw [hpres i0 hi0]; exact Bool.true_eq_false ▸ (by simp)),
        if_neg (by rw [hw]; simp), if_pos hne]
    have hprev : ∀ j, j < i0 →
        checkSeq msa (msa.sqlen.getD 0 0) j = none := by
      intro j hj
      unfold checkSeq
      rw [if_neg (by rw [hpres j (by omega)]; simp),
        if_neg (by rw [hw]; simp),
        if_neg (by rw [hmin j hj]; exact fun hc => hc rfl),
        if_neg (by rw [hss]; simp [trackHasEntry]),
        if_neg (by rw [hsa]; simp [trackHasEntry]),
        if_neg (by rw [hpp]; simp [trackHasEntry])]
    rw [verify_parse, if_neg (by omega),
      firstSeqErr_first msa (msa.sqlen.getD 0 0) msa.nseq i0 hi0 hprev hcs]

/-- A concrete two-sequence MSA (the spec's scenario A shape) accepted by
`verify_parse`. -/
def msaC7 : ESL_MSA where
  nseq := 2
  name := some "test"
  sqname := ["seq1", "seq2"]
  aseq := [some "ACGT", some "AC-T"]
  sqlen := [4, 4]
  wgt := [-1, -1]

/-- The finalized MSA `verify_parse` returns for `msaC7`. -/
def outC7 : ESL_MSA :=
  { msaC7 with
    alen := 4
    wgt := [1, 1]
    sqlen := []
    sslen := []
    salen := []
    pplen := [] }

theorem verify_parse_spec_witness :
    outC7.alen = msaC7.sqlen.getD 0 0 ∧ outC7.wgt.getD 1 0 = 1 := by
  have h := (verify_parse_spec msaC7).1 outC7 rfl
  exact ⟨h.2.1, h.2.2.2.2.2.2.2.2.2.2 rfl 1 (by decide)⟩

/-! ## AFA parsing: `read_afa` (src/unnamed/part_002) -/

/-- `' '` or `'\t'`, the whitespace the AFA reader skips and tokenizes
by. -/
def isSpaceTab (c : Char) : Bool :=
  c = ' ' ∨ c = '\t'

/-- Whitespace-delimited tokens of a sequence line
(`esl_strtok_adv(&s, " \t\n", ...)` driven to exhaustion). -/
def afaLineTokens (cs : List Char) : List (List Char) :=
  (cs.splitOnP isSpaceTab).filter (fun t => ¬ t = [])

/-- Name and remainder of a header line after the `'>'`:
`esl_strtok(&s, " \t\n\r", &seqname)` then the rest of the line as the
optional description. -/
def afaHeaderName (cs : List Char) : List Char × List Char :=
  let cs1 := cs.dropWhile isSpaceTab
  (cs1.takeWhile (fun c => ! isSpaceTab c),
   (cs1.dropWhile (fun c => ! isSpaceTab c)).drop 1)

/-- The growing-MSA state of the AFA reader: names, descriptions, residue
buffers and running length counters, one entry per sequence seen. -/
structure AfaState where
  nseq : ℕ := 0
  sqname : List String := []
  seqdesc : List (Option String) := []
  aseq : List (Option String) := []
  sqlen : List ℕ := []

/-- The failures of `read_afa`: name-parse and missing-header format
errors, the in-loop (`eslEFORMAT`) and end-of-file (`eslEINVAL`) length
mismatches — each carrying the 1-based sequence number, its length and the
expected length from the first sequence, exactly as the source message
reports — and `verify_parse` failures. -/
inductive AfaErr where
  | eof
  | noName (seqnum lineno : ℕ)
  | noHeader (lineno : ℕ)
  | lengthMismatch (seqnum len expected : ℕ)
  | lengthMismatchFinal (seqnum len expected : ℕ)
  | verifyFailed (e : VerifyErr)
  deriving DecidableEq

/-- Process one line of the AFA body: skip blank lines; on a `'>'` header
store the name and description, start a new sequence, and check the
just-completed sequence's length against the first's (only when the new
index exceeds 1, mirroring `seqidx > 1`); otherwise append every
whitespace-delimited token to the current sequence's buffer and length
counter. -/
def afaProcessLine (st : AfaState) (lineno : ℕ) (line : String) :
    Except AfaErr AfaState :=
  match line.data.dropWhile isSpaceTab with
  | [] => .ok st
  | c :: cs =>
    if c = '>' then
      let seqidx := st.nseq
      let nr := afaHeaderName cs
      if nr.1 = [] then .error (.noName (seqidx + 1) lineno)
      else
        let st1 : AfaState :=
          { nseq := st.nseq + 1
            sqname := st.sqname ++ [(⟨nr.1⟩ : String)]
            seqdesc := st.seqdesc
              ++ [if nr.2 = [] then none else some (⟨nr.2⟩ : String)]
            aseq := st.aseq ++ [none]
            sqlen := st.sqlen ++ [0] }
        if seqidx > 1
            ∧ ¬ st1.sqlen.getD (seqidx - 1) 0 = st1.sqlen.getD 0 0 then
          .error (.lengthMismatch seqidx (st1.sqlen.getD (seqidx - 1) 0)
            (st1.sqlen.getD 0 0))
        else .ok st1
    else
      if st.nseq = 0 then .error (.noHeader lineno)
      else
        let idx := st.nseq - 1
        .ok ((afaLineTokens (c :: cs)).foldl (fun acc tok =>
          { acc with
            aseq := acc.aseq.set idx
              (some ((acc.aseq.getD idx none).getD ""
                ++ (⟨tok⟩ : String)))
            sqlen := acc.sqlen.set idx
              (acc.sqlen.getD idx 0 + tok.length) }) st)

/-- The line loop of `read_afa` (`while msafile_getline == eslOK`). -/
def afaLoop : List String → ℕ → AfaState → Except AfaErr AfaState
  | [], _, st => .ok st
  | l :: ls, n, st =>
    match afaProcessLine st n l with
    | .error e => .error e
    | .ok st' => afaLoop ls (n + 1) st'

/-- The `ESL_MSA` the AFA reader hands to `verify_parse`: text mode, no
annotation tracks, no weights (so `wgt` still holds the `-1.0` allocation
fill). -/
def msaOfAfaState (st : AfaState) : ESL_MSA where
  nseq := st.nseq
  sqname := st.sqname
  aseq := st.aseq
  sqlen := st.sqlen
  wgt := List.replicate st.nseq (-1)

/-- The tail of `read_afa` after the line loop: the final-sequence length
check (`eslEINVAL`, citing the 1-based last sequence number and both
lengths), then `verify_parse`, then the empty-alignment end-of-file
case. -/
def afaFinalize (st : AfaState) : Except AfaErr ESL_MSA :=
  if st.nseq > 1
      ∧ ¬ st.sqlen.getD (st.nseq - 1) 0 = st.sqlen.getD 0 0 then
    .error (.lengthMismatchFinal st.nseq (st.sqlen.getD (st.nseq - 1) 0)
      (st.sqlen.getD 0 0))
  else
    match verify_parse (msaOfAfaState st) with
    | .error e => .error (.verifyFailed e)
    | .ok m => if m.nseq = 0 then .error .eof else .ok m

/-- `read_afa`: run the line loop from an empty MSA, then finalize. -/
def read_afa (lines : List String) : Except AfaErr ESL_MSA :=
  match afaLoop lines 1 {} with
  | .error e => .error e
  | .ok st => afaFinalize st

theorem read_afa_ok_elim {lines : List String} {st : AfaState}
    (hL : afaLoop lines 1 {} = .ok st) :
    read_afa lines = afaFinalize st := by
  unfold read_afa
  rw [hL]

/-- The unequal-length AFA input of the spec's concrete scenario C. -/
def afaBad : List String := [">s1", "AAAA", ">s2", "AAA"]

/-- The equal-length AFA input of the spec's concrete scenario B. -/
def afaGood : List String := [">s1", "AAAA", ">s2", "AAAA"]

/-- The state the line loop builds from `afaGood`. -/
def stGood : AfaState where
  nseq := 2
  sqname := ["s1", "s2"]
  seqdesc := [none, none]
  aseq := [some "AAAA", some "AAAA"]
  sqlen := [4, 4]

/-- Claim C6: `read_afa` never accepts an alignment whose sequences have
unequal lengths — on success every accumulated sequence length equals the
first sequence's — and a length mismatch fails with an
`eslEFORMAT`/`eslEINVAL` error carrying the offending 1-based sequence
number and both lengths; concretely, `>s1 AAAA >s2 AAA` fails with the
`eslEINVAL` error citing sequence 2, length 3, expected 4, while the
equal-length variant parses without error. -/
theorem read_afa_length_consistency :
    (∀ lines st msa, afaLoop lines 1 {} = .ok st →
      read_afa lines = .ok msa →
      ∀ i, i < st.nseq → st.sqlen.getD i 0 = st.sqlen.getD 0 0)
    ∧ read_afa afaBad = .error (.lengthMismatchFinal 2 3 4)
    ∧ (read_afa afaGood).isOk = true := by
  refine ⟨?_, rfl, rfl⟩
  intro lines st msa hL hR i hi
  rw [read_afa_ok_elim hL] at hR
  unfold afaFinalize at hR
  split_ifs at hR
  cases hv : verify_parse (msaOfAfaState st) with
  | error e => rw [hv] at hR; exact Except.noConfusion hR
  | ok m =>
      have hfacts := verify_parse_ok_facts (msaOfAfaState st) m hv
      have h1 : (msaOfAfaState st).sqlen.getD i 0 = m.alen :=
        hfacts.2.2.1 i hi
      have h2 : m.alen = (msaOfAfaState st).sqlen.getD 0 0 := hfacts.2.1
      rw [h2] at h1
      exact h1

/-- The finalized MSA `read_afa` returns for `afaGood`. -/
def msaGood : ESL_MSA where
  nseq := 2
  sqname := ["s1", "s2"]
  aseq := [some "AAAA", some "AAAA"]
  wgt := [1, 1]
  alen := 4

theorem read_afa_length_consistency_witness :
    stGood.sqlen.getD 1 0 = stGood.sqlen.getD 0 0 :=
  read_afa_length_consistency.1 afaGood stGood msaGood rfl rfl 1 (by decide)
